import Mathlib

/-!
# Verification of the HPO term-resolution and annotation-validation engine

Shallow embedding of the core subsystem of the goldmine monorepo:
the hybrid resolver, the span/annotation validator and the turn-bounded
conversational orchestrator found in `tools/hpo-agent/agent.py` and
`tools/hpo-agent/tool.py`.

Python strings are modelled as `List Char` (`Str`).  External
collaborators (the Gemini provider, the embedding model and the Qdrant
vector store, and the HPO ontology data) are modelled as explicit
parameters/oracles, exactly as the spec treats them (§6).
-/

set_option maxRecDepth 10000

namespace HpoAgent

/-- Python strings, modelled as lists of characters. -/
abbrev Str := List Char

/-- The whitespace characters recognised by Python's `\s` regex class and
`str.strip()` on the character universe modelled here: ASCII whitespace
plus the Unicode space/separator characters that occur in the source's
character-mapping table. -/
def pySpaceChars : Str :=
  [' ', '\t', '\n', '\r', '\x0b', '\x0c',
   '\u0085', '\u00A0', '\u1680',
   '\u2000', '\u2001', '\u2002', '\u2003', '\u2004', '\u2005', '\u2006',
   '\u2007', '\u2008', '\u2009', '\u200A',
   '\u2028', '\u2029', '\u202F', '\u205F', '\u3000']

/-- Whether a character is whitespace for Python's `\s` / `str.strip`. -/
def isSpacePy (c : Char) : Bool := pySpaceChars.contains c

/-- Python `str.lower`, modelled for the ASCII letters (the only
characters whose case matters anywhere in the pipeline: every non-ASCII
character that reaches a `lower()` call in the source is either removed
by the surrounding normalization or case-invariant on the modelled
character universe). -/
def lowerChar (c : Char) : Char :=
  match c with
  | 'A' => 'a' | 'B' => 'b' | 'C' => 'c' | 'D' => 'd' | 'E' => 'e'
  | 'F' => 'f' | 'G' => 'g' | 'H' => 'h' | 'I' => 'i' | 'J' => 'j'
  | 'K' => 'k' | 'L' => 'l' | 'M' => 'm' | 'N' => 'n' | 'O' => 'o'
  | 'P' => 'p' | 'Q' => 'q' | 'R' => 'r' | 'S' => 's' | 'T' => 't'
  | 'U' => 'u' | 'V' => 'v' | 'W' => 'w' | 'X' => 'x' | 'Y' => 'y'
  | 'Z' => 'z'
  | c => c

/-- ASCII decimal digit; `\d` of the source's `re.match(r"^HP:\d{7}$", ...)`.
(Python's `\d` additionally accepts non-ASCII Unicode decimal digits;
all identifiers considered in the claims are ASCII.) -/
def isDigitPy (c : Char) : Bool := '0' ≤ c && c ≤ '9'

/-- Whether `needle` is a leading segment of `hay`. -/
def headMatches : Str → Str → Bool
  | [], _ => true
  | _ :: _, [] => false
  | a :: as, b :: bs => a = b && headMatches as bs

/-- Python's `needle in hay` substring test (`"" in s` is `True`). -/
def isSubstr : Str → Str → Bool
  | n, [] => n.isEmpty
  | n, c :: t => headMatches n (c :: t) || isSubstr n t

/-- Drop trailing whitespace (the right half of Python `str.strip`). -/
def dropTrailWs : Str → Str
  | [] => []
  | c :: t =>
    match dropTrailWs t with
    | [] => if isSpacePy c then [] else [c]
    | r => c :: r

/-- Python `str.strip()`: remove leading and trailing whitespace. -/
def stripWs (s : Str) : Str := dropTrailWs (s.dropWhile isSpacePy)

/-- Worker for `collapseWs`; the flag records whether the previous
character was whitespace (already emitted as a single `' '`). -/
def collapseWsAux : Bool → Str → Str
  | _, [] => []
  | prevWs, c :: t =>
    if isSpacePy c then
      if prevWs then collapseWsAux true t
      else ' ' :: collapseWsAux true t
    else c :: collapseWsAux false t

/-- Model of the regex substitution collapsing every maximal whitespace
run to a single space. -/
def collapseWs (s : Str) : Str := collapseWsAux false s

/-- The literal separator `" -> "` marking discontinuous spans. -/
def arrowSep : Str := [' ', '-', '>', ' ']

/-- Python `s.split(" -> ")`: leftmost, non-overlapping splitting on the
four-character separator. -/
def splitArrow : Str → List Str
  | [] => [[]]
  | ' ' :: '-' :: '>' :: ' ' :: rest => [] :: splitArrow rest
  | c :: rest =>
    match splitArrow rest with
    | [] => [[c]]
    | p :: ps => (c :: p) :: ps

/-- A character kept by `re.sub(r'[^a-z0-9\s]', '', ...)` in
`normalize_text`. -/
def keepChar (c : Char) : Bool :=
  ('a' ≤ c && c ≤ 'z') || ('0' ≤ c && c ≤ '9') || isSpacePy c

/-- Model of `agent.normalize_text`: lowercase, then remove every character
outside `[a-z0-9\s]`.  (No whitespace collapsing or stripping happens
here — whitespace characters are kept verbatim.) -/
def normalize_text (s : Str) : Str :=
  (s.map lowerChar).filter keepChar

/-- First-match lookup in an association list (used to model both the
`char_mappings` replacement table and the NFD decomposition fragment). -/
def assocFind (l : List (Char × Str)) (c : Char) : Option Str :=
  match l with
  | [] => none
  | (k, v) :: t => if c = k then some v else assocFind t c

/-- The `char_mappings` table of `agent.normalize_unicode_to_ascii`,
verbatim from the source: spaces, dashes, quotes, and bullet-like
characters mapped to ASCII replacements. -/
def charMappings : List (Char × Str) :=
  [(' ', [' ']), (' ', [' ']), (' ', [' ']), (' ', [' ']),
   (' ', [' ']), (' ', [' ']), (' ', [' ']), (' ', [' ']),
   (' ', [' ']), (' ', [' ']), (' ', [' ']), (' ', [' ']),
   ('　', [' ']),
   ('‐', ['-']), ('‑', ['-']), ('‒', ['-']), ('–', ['-']),
   ('—', ['-']), ('―', ['-']), ('−', ['-']), ('－', ['-']),
   ('‘', ['\x27']), ('’', ['\x27']), ('‚', ['\x27']),
   ('‛', ['\x27']),
   ('“', ['\x22']), ('”', ['\x22']), ('„', ['\x22']),
   ('‟', ['\x22']),
   ('‹', ['<']), ('›', ['>']), ('«', ['\x22']), ('»', ['\x22']),
   ('…', ['.', '.', '.']),
   ('•', ['*']), ('‣', ['*']), ('⁃', ['*']), ('·', ['*']),
   ('∙', ['*'])]

/-- One character through the sequential `str.replace` loop of
`normalize_unicode_to_ascii`.  The table's keys are distinct single
characters above U+007F and no replacement contains a key, so the
sequential whole-string replacements are equivalent to this per-character
lookup. -/
def mapCharPy (c : Char) : Str := (assocFind charMappings c).getD [c]

/-- Modelled from `unicodedata.normalize('NFD', c)` restricted to a
finite fragment: the Latin-1 accented letters, each decomposing into its
ASCII base letter followed by a combining mark.  Characters outside the
table are treated as having no decomposition (their NFD form is
themselves), and `unicodedata.normalize('NFC', ·)` is modelled as the
identity on this character universe. -/
def nfdTable : List (Char × Str) :=
  [('à', ['a', '̀']), ('á', ['a', '́']),
   ('â', ['a', '̂']), ('ã', ['a', '̃']),
   ('ä', ['a', '̈']), ('å', ['a', '̊']),
   ('è', ['e', '̀']), ('é', ['e', '́']),
   ('ê', ['e', '̂']), ('ë', ['e', '̈']),
   ('ì', ['i', '̀']), ('í', ['i', '́']),
   ('î', ['i', '̂']), ('ï', ['i', '̈']),
   ('ñ', ['n', '̃']),
   ('ò', ['o', '̀']), ('ó', ['o', '́']),
   ('ô', ['o', '̂']), ('õ', ['o', '̃']),
   ('ö', ['o', '̈']),
   ('ù', ['u', '̀']), ('ú', ['u', '́']),
   ('û', ['u', '̂']), ('ü', ['u', '̈']),
   ('ý', ['y', '́']), ('ÿ', ['y', '̈']),
   ('ç', ['c', '̧']),
   ('À', ['A', '̀']), ('Á', ['A', '́']),
   ('Â', ['A', '̂']), ('Ã', ['A', '̃']),
   ('Ä', ['A', '̈']), ('Å', ['A', '̊']),
   ('È', ['E', '̀']), ('É', ['E', '́']),
   ('Ê', ['E', '̂']), ('Ë', ['E', '̈']),
   ('Ì', ['I', '̀']), ('Í', ['I', '́']),
   ('Î', ['I', '̂']), ('Ï', ['I', '̈']),
   ('Ñ', ['N', '̃']),
   ('Ò', ['O', '̀']), ('Ó', ['O', '́']),
   ('Ô', ['O', '̂']), ('Õ', ['O', '̃']),
   ('Ö', ['O', '̈']),
   ('Ù', ['U', '̀']), ('Ú', ['U', '́']),
   ('Û', ['U', '̂']), ('Ü', ['U', '̈']),
   ('Ý', ['Y', '́']),
   ('Ç', ['C', '̧'])]

/-- The per-character body of the final loop of
`normalize_unicode_to_ascii`: a character above U+007F whose NFD
decomposition has length > 1 and starts with an ASCII character is
replaced by that first character; everything else is kept. -/
def nfdStepPy (c : Char) : Char :=
  if c.toNat ≤ 127 then c
  else
    match assocFind nfdTable c with
    | some (d :: rest) => if !rest.isEmpty && d.toNat ≤ 127 then d else c
    | _ => c

/-- Model of `agent.normalize_unicode_to_ascii`: NFC normalization (identity on
the modelled universe), the character-mapping replacements, then the
NFD-based accent stripping loop. -/
def normalize_unicode_to_ascii (s : Str) : Str :=
  (s.flatMap mapCharPy).map nfdStepPy

/-- Model of `agent.normalize_text_for_matching`: unicode-to-ASCII mapping,
lowercase, collapse every whitespace run to a single space, strip. -/
def normalize_text_for_matching (s : Str) : Str :=
  stripWs (collapseWs ((normalize_unicode_to_ascii s).map lowerChar))

/-- Model of `agent.validate_text_span_in_sentence`: a discontinuous span (one
containing the literal `" -> "`) is valid iff every stripped part's
normalization occurs in the normalized sentence; a continuous span is
valid iff its normalization occurs in the normalized sentence. -/
def validate_text_span_in_sentence (text_span sentence : Str) : Bool :=
  if isSubstr arrowSep text_span then
    let parts := (splitArrow text_span).map stripWs
    let sentence_normalized := normalize_text_for_matching sentence
    parts.all fun part => isSubstr (normalize_text_for_matching part) sentence_normalized
  else
    isSubstr (normalize_text_for_matching text_span) (normalize_text_for_matching sentence)

/-- Python's `enumerate`, with explicit start index. -/
def enumFrom {α : Type} : Nat → List α → List (Nat × α)
  | _, [] => []
  | n, a :: t => (n, a) :: enumFrom (n + 1) t

/-- Model of `agent.validate_text_span_in_document`: the indices (in ascending
order) of the sentences in which the span validates. -/
def validate_text_span_in_document (text_span : Str) (sentences : List Str) : List Nat :=
  ((enumFrom 0 sentences).filter fun p => validate_text_span_in_sentence text_span p.2).map
    (·.1)

/-- The identifier check `re.match(r"^HP:\d{7}$", hpo_id)` of
`agent.submit_annotations`.  Python's `$` matches at the end of the
string or just before a single newline at the end of the string, so
`"HP:0001234\n"` is accepted in addition to `"HP:0001234"`. -/
def hpoIdMatch (s : Str) : Bool :=
  match s with
  | 'H' :: 'P' :: ':' :: rest =>
    (rest.length == 7 && rest.all isDigitPy)
      || (rest.length == 8 && rest.dropLast.all isDigitPy && rest.getLast? == some '\n')
  | _ => false

/-- The CURIE pattern as the spec words it: namespace `HP`, a colon,
then an all-digit local code of fixed width 7 — nothing else.  Kept
separate from `hpoIdMatch` (the code's actual check) so the two can be
compared. -/
def hpoIdSpecPattern (s : Str) : Bool :=
  match s with
  | 'H' :: 'P' :: ':' :: rest => rest.length == 7 && rest.all isDigitPy
  | _ => false

/-- A proposed (unvalidated) text-span/identifier pair, as submitted by
the provider. -/
structure Ann where
  text_span : Str
  hpo_id : Str
deriving DecidableEq

/-- A validated pair enriched with the sentence it was found in. -/
structure VAnn where
  text_span : Str
  hpo_id : Str
  sentence_index : Nat
deriving DecidableEq

/-- The result dictionary of `agent.submit_annotations`.  The source
stringifies `errors` and the two totals; the model keeps the error list
and the counts directly (`str(errors) == "[]"` iff `errors = []`). -/
structure SubmitResult where
  validated_annotations : List VAnn
  errors : List Str
  total_submitted : Nat
  total_validated : Nat
deriving DecidableEq

/-- The error string recorded for a malformed identifier: the text
Invalid HPO ID format followed by the identifier. -/
def invalidIdMsg (hpo_id : Str) : Str := "Invalid HPO ID format: ".data ++ hpo_id

/-- The error string recorded for a span found in no sentence: the text
Text span ... not found as complete span within any single sentence,
with the span quoted in the middle. -/
def spanNotFoundMsg (text_span : Str) : Str :=
  "Text span \x27".data ++ text_span
    ++ "\x27 not found as complete span within any single sentence".data

/-- One iteration of the loop of `agent.submit_annotations`: a malformed
identifier records one error and skips the annotation; a span found in
at least one sentence fans out to one validated annotation per matching
sentence index; a span found nowhere records one error. -/
def submitStep (sentences : List Str) (acc : List VAnn × List Str) (a : Ann) :
    List VAnn × List Str :=
  if !hpoIdMatch a.hpo_id then (acc.1, acc.2 ++ [invalidIdMsg a.hpo_id])
  else
    match validate_text_span_in_document a.text_span sentences with
    | [] => (acc.1, acc.2 ++ [spanNotFoundMsg a.text_span])
    | idxs => (acc.1 ++ idxs.map fun i => ⟨a.text_span, a.hpo_id, i⟩, acc.2)

/-- Model of `agent.submit_annotations`. -/
def submit_annotations (anns : List Ann) (sentences : List Str) : SubmitResult :=
  let p := anns.foldl (submitStep sentences) ([], [])
  ⟨p.1, p.2, anns.length, p.1.length⟩

/-! ## TermIndex and HybridResolver (`agent.py`) -/

/-- An ontology term as consumed from the external ontology provider
(`pyhpo.Ontology`): identifier, canonical name, synonym strings and the
obsolete flag.  Loaded once at startup; immutable. -/
structure HpoTerm where
  id : Str
  name : Str
  synonyms : List Str
  is_obsolete : Bool
deriving DecidableEq

/-- The normalized surface forms a non-obsolete term contributes to the
exact-match index in `agent.build_index_exact_matches`: its name and
every synonym. -/
def termKeys (t : HpoTerm) : List Str :=
  normalize_text t.name :: t.synonyms.map normalize_text

/-- The bucket of `EXACT_MATCH_INDEX` at `key`: the identifiers of the
non-obsolete terms one of whose normalized surface forms is `key`.
(The source stores a Python `set`; the model lists the contributing
terms' identifiers in term order.) -/
def matchingIds (terms : List HpoTerm) (key : Str) : List Str :=
  (terms.filter fun t => !t.is_obsolete && (termKeys t).contains key).map (·.id)

/-- Model of `agent.find_exact_matches`: normalize the query, then return the
index bucket if the key is present in the index — which, by
construction of the `defaultdict`, happens exactly when the bucket is
non-empty — and `None` otherwise. -/
def find_exact_matches (terms : List HpoTerm) (query : Str) : Option (List Str) :=
  let normalized_query := normalize_text query
  let ids := matchingIds terms normalized_query
  if ids.isEmpty then none else some ids

/-- A ranked candidate: (term identifier, relevance score). -/
abbrev Cand := Str × ℚ

/-- The truthiness test `if (exact_matches := find_exact_matches(query)):`
of `agent.search_terms` — `None` and an empty set are both falsy. -/
def isHit (terms : List HpoTerm) (q : Str) : Bool :=
  match find_exact_matches terms q with
  | some ids => !ids.isEmpty
  | none => false

/-- The candidate list `[(hpo_id, 1.0) for hpo_id in exact_matches]`
built for an exact hit. -/
def exactCands (terms : List HpoTerm) (q : Str) : List Cand :=
  ((find_exact_matches terms q).getD []).map fun hpo_id => (hpo_id, (1 : ℚ))

/-- Reassembly of `agent.search_terms`: the `results` slots of exact
hits were assigned their exact candidates; the miss slots are filled in
original order from the semantic results (`zip(embed_indices,
search_results)` — if the external store returned fewer lists than
there are misses, the excess slots keep their initial `[]` value, and
`search_result if search_result else []` maps an empty result to `[]`). -/
def fillMisses (terms : List HpoTerm) : List Str → List (List Cand) → List (List Cand)
  | [], _ => []
  | q :: qs, sems =>
    if isHit terms q then exactCands terms q :: fillMisses terms qs sems
    else
      match sems with
      | [] => [] :: fillMisses terms qs []
      | r :: rs => (if r.isEmpty then [] else r) :: fillMisses terms qs rs

/-- Model of `agent.search_terms`.  The embedding model and the Qdrant vector
store are external collaborators (spec §6); their composition
`query_vector_db(embed_queries(to_embed), model, top_k)` is modelled as
the oracle `sem` (a total function: exceptions at this layer are
handled by the orchestrator, see `execOne`).  The source only invokes
the services when at least one query missed the exact index. -/
def search_terms (terms : List HpoTerm) (sem : List Str → Nat → List (List Cand))
    (queries : List Str) (top_k : Nat) : List (List Cand) :=
  let to_embed := queries.filter fun q => !isHit terms q
  let sems := if to_embed.isEmpty then [] else sem to_embed top_k
  fillMisses terms queries sems

/-- A small concrete term set used by witnesses and counterexamples:
one live term with a synonym, one obsolete term sharing the synonym
name, one live term with no synonyms. -/
def demoTerms : List HpoTerm :=
  [⟨"HP:0000001".data, "Fever".data, ["Pyrexia".data], false⟩,
   ⟨"HP:0000002".data, "Old fever".data, ["Fever".data], true⟩,
   ⟨"HP:0000003".data, "Chills".data, [], false⟩]

/-! ## ConversationOrchestrator (`tool.py`) -/

/-- The `PhenotypeMatch` output record: identifier and matched text. -/
structure PMatch where
  id : Str
  match_text : Str
deriving DecidableEq

/-- The closed set of callable tools dispatched by
`HPOAgentModelImplementation._execute_function_call` (string-keyed in
the source; `unknownFn` stands for any unrecognised function name). -/
inductive FuncCall where
  | searchSingle (query : Str) (top_k : Nat)
  | searchBatch (queries : List Str)
  | submitAnswer (mappings : List Ann)
  | unknownFn
deriving DecidableEq

/-- A provider response, as the list of its parts: `some fc` is a part
carrying a function call, `none` a text/thought part. -/
abbrev Response := List (Option FuncCall)

/-- A tool-response part round-tripped into the conversation: the
`result` payload of a search, the full validation result of a
non-terminal submit, or the `error` dict built for an exception or an
unknown function. -/
inductive ToolResp where
  | searchRes (batch : List (List Cand))
  | submitRes (res : SubmitResult)
  | errorRes (msg : Str)
deriving DecidableEq

/-- A transcript entry.  The transcript is mutated only by appending:
the initial user document, appended model responses, appended
function-response turns. -/
inductive Content where
  | userDoc (text : Str)
  | modelMsg (resp : Response)
  | toolMsg (results : List ToolResp)
deriving DecidableEq

/-- The external search machinery behind the two search tools
(`batch_search_hpo_candidates` / `search_hpo_candidates` calling the
embedding model, the vector store and `HPOEntry` lookups): `none`
models a raised exception. -/
abbrev SearchOracle := FuncCall → Option (List (List Cand))

/-- The external LLM provider (`gemini_client.models.generate_content`)
as a function of the full transcript; `none` models a raised
exception. -/
abbrev Provider := List Content → Option Response

/-- The error payload built for an unrecognised function name. -/
def unknownFnMsg : Str := "Unknown function".data

/-- The `{"error": str(e)}` payload built when a tool raises; the
exception text is modelled by a fixed string (no claim depends on it). -/
def toolExcMsg : Str := "tool execution raised an exception".data

/-- Result of executing one function call inside a turn. -/
inductive ExecStep where
  | finalSubmit (validated : List VAnn)
  | respond (tr : ToolResp)
deriving DecidableEq

/-- Model of `HPOAgentModelImplementation._execute_function_call` combined with
the `final` check done by `_process_document`: a submit whose
validation produced no errors is terminal (`final=True`); a submit with
errors, a search, an unknown function, and a tool-raised exception all
produce a response part and are not terminal.  The whole body is
wrapped in `try/except`, so a search-layer exception becomes an error
response — it does not escape. -/
def execOne (tooler : SearchOracle) (sentences : List Str) (fc : FuncCall) : ExecStep :=
  match fc with
  | .submitAnswer mappings =>
    let validation_result := submit_annotations mappings sentences
    if validation_result.errors.isEmpty then
      .finalSubmit validation_result.validated_annotations
    else .respond (.submitRes validation_result)
  | .unknownFn => .respond (.errorRes unknownFnMsg)
  | fc =>
    match tooler fc with
    | some batch => .respond (.searchRes batch)
    | none => .respond (.errorRes toolExcMsg)

/-- Outcome of executing the function calls of one turn in provider
order: either a terminal clean submit (remaining calls unexecuted), or
the positionally aligned list of tool-response parts. -/
inductive ExecCallsOut where
  | finished (validated : List VAnn)
  | parts (ps : List ToolResp)
deriving DecidableEq

/-- The function-call loop of `_process_document`: execute calls in
the order the provider returned them, returning immediately on a final
submit, otherwise accumulating one response part per call. -/
def execCalls (tooler : SearchOracle) (sentences : List Str) :
    List FuncCall → List ToolResp → ExecCallsOut
  | [], acc => .parts acc.reverse
  | fc :: rest, acc =>
    match execOne tooler sentences fc with
    | .finalSubmit v => .finished v
    | .respond tr => execCalls tooler sentences rest (tr :: acc)

/-- One step of `_convert_to_sentence_organized_matches`: a validated
annotation with truthy (non-empty) span and identifier and an in-range
sentence index is appended to that sentence's list. -/
def addMatch (nSent : Nat) (acc : List (List PMatch)) (v : VAnn) : List (List PMatch) :=
  if v.text_span ≠ [] ∧ v.hpo_id ≠ [] ∧ v.sentence_index < nSent then
    acc.set v.sentence_index (acc.getD v.sentence_index [] ++ [⟨v.hpo_id, v.text_span⟩])
  else acc

/-- The all-empty per-sentence output `[[] for _ in sentences]`. -/
def allEmpty (sentences : List Str) : List (List PMatch) := sentences.map fun _ => []

/-- Model of `HPOAgentModelImplementation._convert_to_sentence_organized_matches`. -/
def convertToMatches (validated : List VAnn) (sentences : List Str) :
    List (List PMatch) :=
  validated.foldl (addMatch sentences.length) (allEmpty sentences)

/-- What one turn of `_process_document` does after the provider call:
provider exception; terminal converted output; or the next transcript.
If the response carries no function call, nothing is appended — the
loop proceeds with the transcript unchanged.  Otherwise the model
response and then the single function-response turn are appended. -/
inductive TurnStep where
  | provErr
  | finished (out : List (List PMatch))
  | next (contents : List Content)
deriving DecidableEq

/-- The body of the `while` loop of `_process_document` for one turn. -/
def orchTurn (tooler : SearchOracle) (sentences : List Str) (contents : List Content)
    (pr : Option Response) : TurnStep :=
  match pr with
  | none => .provErr
  | some resp =>
    let function_calls := resp.filterMap id
    if function_calls.isEmpty then .next contents
    else
      match execCalls tooler sentences function_calls [] with
      | .finished v => .finished (convertToMatches v sentences)
      | .parts ps => .next (contents ++ [.modelMsg resp, .toolMsg ps])

/-- The three terminal states of the orchestrator, each carrying the
per-sentence match list handed to the caller.  In the source a provider
exception `break`s out of the loop and budget exhaustion falls out of
it; both paths return `[[] for _ in sentences]`. -/
inductive Outcome where
  | success (out : List (List PMatch))
  | turnBudget (out : List (List PMatch))
  | fatalError (out : List (List PMatch))
deriving DecidableEq

/-- The `while turn_count < max_turns` loop of `_process_document`,
with the remaining turn budget as fuel; also returns the number of
turns actually run (provider calls made). -/
def runTurns (provider : Provider) (tooler : SearchOracle) (sentences : List Str) :
    Nat → List Content → Outcome × Nat
  | 0, _ => (.turnBudget (allEmpty sentences), 0)
  | n + 1, contents =>
    match orchTurn tooler sentences contents (provider contents) with
    | .provErr => (.fatalError (allEmpty sentences), 1)
    | .finished out => (.success out, 1)
    | .next c2 =>
      let p := runTurns provider tooler sentences n c2
      (p.1, p.2 + 1)

/-- The fixed turn budget of the source, max_turns = 10. -/
def max_turns : Nat := 10

/-- The numbered-sentence rendering of the document
(`f"({i}) {sentence}\n"`, 1-based). -/
def renderDoc (sentences : List Str) : Str :=
  "Document to analyze:\n".data
    ++ (enumFrom 1 sentences).flatMap fun p =>
        '(' :: (Nat.repr p.1).data ++ [')', ' '] ++ p.2 ++ ['\n']

/-- Model of `HPOAgentModelImplementation._process_document`: seed the
conversation with the rendered document and run at most `max_turns`
turns. -/
def process_document (provider : Provider) (tooler : SearchOracle)
    (sentences : List Str) : Outcome × Nat :=
  runTurns provider tooler sentences max_turns [Content.userDoc (renderDoc sentences)]

/-- Whether a function call is a submit whose validation yields zero
errors (the terminal condition of the orchestrator). -/
def isCleanSubmit (sentences : List Str) : FuncCall → Bool
  | .submitAnswer mappings => (submit_annotations mappings sentences).errors.isEmpty
  | _ => false

/-- The tool-response part a non-terminal call contributes (the
`finalSubmit` branch is unreachable for calls that are not clean
submits). -/
def toolRespOf (tooler : SearchOracle) (sentences : List Str) (fc : FuncCall) : ToolResp :=
  match execOne tooler sentences fc with
  | .respond tr => tr
  | .finalSubmit _ => .errorRes []

/-- The spec section 8 end-to-end example document. -/
def exSentences : List Str :=
  ["The patient has short fingers.".data, "No abnormality noted.".data]

/-- A clean submit call for `exSentences`. -/
def exSubmit : FuncCall :=
  .submitAnswer [⟨"short fingers".data, "HP:0001156".data⟩]

/-! ## Spec-side definitions and concrete fixtures -/

/-- The index/query normalization as the spec words it (§4.1): "lowercase,
strip all characters outside `[a-z0-9\s]`, collapse surrounding
whitespace".  Kept separate from `normalize_text` (the code's actual
normalization, which keeps surrounding whitespace verbatim) so the two
can be compared. -/
def normalize_text_claimed (s : Str) : Str :=
  stripWs ((s.map lowerChar).filter keepChar)

/-- The per-annotation fan-out of `submit_annotations`: the validated
annotations one proposed annotation contributes. -/
def validatedOf (sentences : List Str) (a : Ann) : List VAnn :=
  if hpoIdMatch a.hpo_id then
    (validate_text_span_in_document a.text_span sentences).map fun i =>
      ⟨a.text_span, a.hpo_id, i⟩
  else []

/-- The error string (if any) one proposed annotation contributes to
`submit_annotations`. -/
def errorOf (sentences : List Str) (a : Ann) : Option Str :=
  if hpoIdMatch a.hpo_id then
    if validate_text_span_in_document a.text_span sentences = [] then
      some (spanNotFoundMsg a.text_span)
    else none
  else some (invalidIdMsg a.hpo_id)

/-- A provider that always answers with a single text part and no
function call. -/
def textOnlyProvider : Provider := fun _ => some [none]

/-- A search layer that always raises (counterexample fixture). -/
def raisingTooler : SearchOracle := fun _ => none

/-- A provider that first requests a batch search and from then on
submits one clean annotation (counterexample fixture for the claim that
a resolver exception is fatal). -/
def searchThenSubmitProvider : Provider := fun contents =>
  if contents.length ≤ 1 then some [some (FuncCall.searchBatch ["short fingers".data])]
  else some [some exSubmit]

/-- An annotation whose identifier carries a trailing newline: it fails
the spec's CURIE pattern but passes the code's
`re.match(r"^HP:\d{7}$", ...)` check. -/
def newlineIdAnn : Ann := ⟨"short fingers".data, "HP:0001156".data ++ ['\n']⟩

/-- The uppercase ASCII letters (the keys of `lowerChar`'s match). -/
def upperLits : Str := "ABCDEFGHIJKLMNOPQRSTUVWXYZ".data

/-- The lowercase ASCII letters (the values of `lowerChar`'s match). -/
def lowerLits : Str := "abcdefghijklmnopqrstuvwxyz".data

/-- Every whitespace character of the string is a plain space. -/
def allSp (l : Str) : Bool := l.all fun c => !isSpacePy c || c == ' '

/-- No two adjacent characters are both plain spaces. -/
def noTwoSp : Str → Bool
  | c :: d :: t => !(c == ' ' && d == ' ') && noTwoSp (d :: t)
  | _ => true

/-- The first character, if any, is not whitespace. -/
def headNotSp : Str → Bool
  | c :: _ => !isSpacePy c
  | [] => true

/-- The last character, if any, is not whitespace. -/
def lastNotSp : Str → Bool
  | [] => true
  | [c] => !isSpacePy c
  | _ :: t => lastNotSp t

/-- One source character through the character-level pipeline of
`normalize_text_for_matching`: mapping-table replacement, then NFD
accent stripping and lowercasing of each produced character. -/
def charPipe (c : Char) : Str :=
  (mapCharPy c).map fun x => lowerChar (nfdStepPy x)

/-- A character left untouched by every stage of the character-level
pipeline. -/
def pipeFix (c : Char) : Bool :=
  mapCharPy c == [c] && nfdStepPy c == c && lowerChar c == c

/-! ## General lemmas -/

theorem isSubstr_nil (h : Str) : isSubstr [] h = true := by
  cases h <;> simp [isSubstr, headMatches]

theorem hpoIdSpecPattern_imp_match {s : Str} (h : hpoIdSpecPattern s = true) :
    hpoIdMatch s = true := by
  unfold hpoIdSpecPattern at h
  split at h
  · next rest => simp [hpoIdMatch, h]
  · exact absurd h (by simp)

theorem normalize_text_for_matching_nil : normalize_text_for_matching [] = [] := rfl

theorem validate_sentence_nil_span (s : Str) :
    validate_text_span_in_sentence [] s = true := by
  have harrow : isSubstr arrowSep ([] : Str) = false := rfl
  simp [validate_text_span_in_sentence, harrow, normalize_text_for_matching_nil,
    isSubstr_nil]

theorem enumFrom_filter_true_map_fst (p : Nat × Str → Bool)
    (hp : ∀ x, p x = true) :
    ∀ (n : Nat) (ss : List Str),
      (((enumFrom n ss).filter p).map (·.1)) = List.range' n ss.length
  | _, [] => by simp [enumFrom]
  | n, s :: ss => by
    simp [enumFrom, hp, List.range'_succ, enumFrom_filter_true_map_fst p hp (n + 1) ss]

theorem validate_doc_nil_span (ss : List Str) :
    validate_text_span_in_document [] ss = List.range ss.length := by
  rw [List.range_eq_range']
  exact enumFrom_filter_true_map_fst _ (fun x => validate_sentence_nil_span x.2) 0 ss

theorem enumFrom_fst_lt {m : Nat} {l : List Str} {q : Nat × Str}
    (hq : q ∈ enumFrom m l) : m ≤ q.1 := by
  induction l generalizing m with
  | nil => simp [enumFrom] at hq
  | cons a t ih =>
    simp only [enumFrom, List.mem_cons] at hq
    rcases hq with h | h
    · simp [h]
    · exact Nat.le_of_succ_le (ih h)

theorem enumFrom_pairwise (m : Nat) (l : List Str) :
    List.Pairwise (fun p q : Nat × Str => p.1 < q.1) (enumFrom m l) := by
  induction l generalizing m with
  | nil => exact List.Pairwise.nil
  | cons a t ih =>
    refine List.Pairwise.cons ?_ (ih (m + 1))
    intro q hq
    exact Nat.lt_of_succ_le (enumFrom_fst_lt hq)

theorem validate_doc_sorted (span : Str) (ss : List Str) :
    List.Sorted (· < ·) (validate_text_span_in_document span ss) := by
  unfold validate_text_span_in_document
  rw [List.Sorted, List.pairwise_map]
  exact (enumFrom_pairwise 0 ss).filter _

theorem submit_foldl (ss : List Str) :
    ∀ (anns : List Ann) (vs : List VAnn) (es : List Str),
      anns.foldl (submitStep ss) (vs, es)
        = (vs ++ anns.flatMap (validatedOf ss), es ++ anns.filterMap (errorOf ss))
  | [], vs, es => by simp
  | a :: anns, vs, es => by
    rw [List.foldl_cons]
    by_cases h : hpoIdMatch a.hpo_id
    · cases hd : validate_text_span_in_document a.text_span ss with
      | nil =>
        rw [show submitStep ss (vs, es) a = (vs, es ++ [spanNotFoundMsg a.text_span]) by
          simp [submitStep, h, hd]]
        simp [submit_foldl ss anns, validatedOf, errorOf, h, hd]
      | cons i idxs =>
        rw [show submitStep ss (vs, es) a
            = (vs ++ (i :: idxs).map fun j => (⟨a.text_span, a.hpo_id, j⟩ : VAnn), es) by
          simp [submitStep, h, hd]]
        simp [submit_foldl ss anns, validatedOf, errorOf, h, hd]
    · rw [show submitStep ss (vs, es) a = (vs, es ++ [invalidIdMsg a.hpo_id]) by
        simp [submitStep, h]]
      simp [submit_foldl ss anns, validatedOf, errorOf, h]

theorem submit_annotations_validated (anns : List Ann) (ss : List Str) :
    (submit_annotations anns ss).validated_annotations
      = anns.flatMap (validatedOf ss) := by
  unfold submit_annotations
  rw [submit_foldl ss anns [] []]
  simp

theorem submit_annotations_errors (anns : List Ann) (ss : List Str) :
    (submit_annotations anns ss).errors = anns.filterMap (errorOf ss) := by
  unfold submit_annotations
  rw [submit_foldl ss anns [] []]
  simp

theorem hpoIdMatch_iff (s : Str) :
    hpoIdMatch s = true ↔
      hpoIdSpecPattern s = true
        ∨ ∃ t : Str, s = t ++ ['\n'] ∧ hpoIdSpecPattern t = true := by
  constructor
  · intro h
    unfold hpoIdMatch at h
    split at h
    · next rest =>
      simp only [Bool.or_eq_true] at h
      rcases h with h | h
      · exact Or.inl (by simpa [hpoIdSpecPattern] using h)
      · simp only [Bool.and_eq_true, beq_iff_eq] at h
        obtain ⟨⟨h8, hall⟩, hlast⟩ := h
        have hne : rest ≠ [] := by
          intro hc; rw [hc] at h8; simp at h8
        have hsplit := List.dropLast_append_getLast hne
        have hlast2 : rest.getLast hne = '\n' := by
          rw [List.getLast?_eq_getLast rest hne] at hlast
          exact Option.some_injective _ hlast.symm |>.symm
        refine Or.inr ⟨'H' :: 'P' :: ':' :: rest.dropLast, ?_, ?_⟩
        · simp only [List.cons_append, List.cons.injEq, true_and]
          conv_lhs => rw [← hsplit]
          rw [hlast2]
        · have h7 : rest.dropLast.length = 7 := by
            rw [List.length_dropLast, h8]
          simp [hpoIdSpecPattern, h7, hall]
    · exact absurd h (by simp)
  · intro h
    rcases h with h | ⟨t, hst, hts⟩
    · exact hpoIdSpecPattern_imp_match h
    · unfold hpoIdSpecPattern at hts
      split at hts
      · next r =>
        subst hst
        simp only [Bool.and_eq_true, beq_iff_eq] at hts
        simp [hpoIdMatch, List.length_append, hts.1, List.dropLast_concat, hts.2]
      · exact absurd hts (by simp)

/-! ## Claim theorems -/

/-- C5 (confirmed).  For every span string containing the literal
separator `" -> "` and every sentence, `validate_text_span_in_sentence`
splits the span on the separator, trims each part, and accepts the span
for that sentence if and only if every part (normalized) is a substring
of the sentence's normalized text — no condition on the parts' order or
adjacency within the sentence is involved. -/
theorem C5_discontinuous_span (text_span sentence : Str)
    (hsep : isSubstr arrowSep text_span = true) :
    validate_text_span_in_sentence text_span sentence = true ↔
      ∀ part ∈ (splitArrow text_span).map stripWs,
        isSubstr (normalize_text_for_matching part)
          (normalize_text_for_matching sentence) = true := by
  simp only [validate_text_span_in_sentence, hsep, if_true]
  exact List.all_eq_true

/-- Witness for C5, at the spec's own boundary example: the span
`"fingers -> short"` validates against a sentence containing
`"his fingers are quite short today"` although the parts are neither
adjacent nor in span order contiguous. -/
theorem C5_witness :
    isSubstr arrowSep "fingers -> short".data = true
    ∧ validate_text_span_in_sentence "fingers -> short".data
        "his fingers are quite short today".data = true :=
  ⟨by decide, (C5_discontinuous_span "fingers -> short".data
      "his fingers are quite short today".data (by decide)).mpr (by decide)⟩

/-- C10 (confirmed).  An annotation with a well-formed identifier
and an empty `text_span` validates against every sentence index of a
non-empty document, so `submit_annotations` emits one validated
annotation per sentence and records no error — and such a submit is a
clean, terminal submission for the orchestrator. -/
theorem C10_empty_span_clean_submit (sentences : List Str) (a : Ann)
    (hne : sentences ≠ []) (hid : hpoIdSpecPattern a.hpo_id = true)
    (hspan : a.text_span = []) :
    validate_text_span_in_document a.text_span sentences = List.range sentences.length
    ∧ (submit_annotations [a] sentences).validated_annotations
        = (List.range sentences.length).map
            (fun i => (⟨a.text_span, a.hpo_id, i⟩ : VAnn))
    ∧ (submit_annotations [a] sentences).errors = []
    ∧ isCleanSubmit sentences (FuncCall.submitAnswer [a]) = true := by
  have hm := hpoIdSpecPattern_imp_match hid
  have hdoc : validate_text_span_in_document a.text_span sentences
      = List.range sentences.length := by
    rw [hspan]; exact validate_doc_nil_span sentences
  have hrange : List.range sentences.length ≠ [] := by
    simp only [ne_eq, List.range_eq_nil, List.length_eq_zero]
    exact hne
  have herr : (submit_annotations [a] sentences).errors = [] := by
    rw [submit_annotations_errors]
    simp [errorOf, hm, hdoc, hrange]
  refine ⟨hdoc, ?_, herr, ?_⟩
  · rw [submit_annotations_validated]
    simp [validatedOf, hm, hdoc]
  · unfold isCleanSubmit
    simp [herr]

/-- Witness for C10 at a concrete one-sentence document. -/
theorem C10_witness :
    (["The patient has short fingers.".data] : List Str) ≠ []
    ∧ (submit_annotations [⟨[], "HP:0001156".data⟩]
        ["The patient has short fingers.".data]).errors = []
    ∧ isCleanSubmit ["The patient has short fingers.".data]
        (FuncCall.submitAnswer [⟨[], "HP:0001156".data⟩]) = true :=
  ⟨by decide,
   (C10_empty_span_clean_submit ["The patient has short fingers.".data]
      ⟨[], "HP:0001156".data⟩ (by decide) (by decide) rfl).2.2.1,
   (C10_empty_span_clean_submit ["The patient has short fingers.".data]
      ⟨[], "HP:0001156".data⟩ (by decide) (by decide) rfl).2.2.2⟩

/-- C4 (counterexample).  The claim says an identifier not matching
"`HP`, a colon, then an all-digit local code of fixed width 7" yields
one error string and is dropped.  The identifier `"HP:0001156\n"` does
not match that pattern, yet the code's `re.match(r"^HP:\d{7}$", ...)`
accepts it (Python's `$` also matches just before a trailing newline):
the submission produces no error and a validated annotation. -/
theorem C4_counterexample :
    hpoIdSpecPattern newlineIdAnn.hpo_id = false
    ∧ (submit_annotations [newlineIdAnn] exSentences).errors = []
    ∧ (submit_annotations [newlineIdAnn] exSentences).validated_annotations
        = [⟨"short fingers".data, newlineIdAnn.hpo_id, 0⟩] := by decide

/-- C4 (amended).  `submit_annotations` checks each annotation
independently: an identifier rejected by the code's pattern — `HP:`
plus seven digits, optionally followed by a single trailing newline —
contributes exactly one error string and no validated annotation,
without aborting the batch; an accepted identifier whose span is found
in at least one sentence fans out to one validated annotation per
matching sentence index; the validated list preserves input order then
ascending sentence index, and the error strings preserve input order. -/
theorem C4_amended (anns : List Ann) (sentences : List Str) :
    (submit_annotations anns sentences).errors = anns.filterMap (errorOf sentences)
    ∧ (submit_annotations anns sentences).validated_annotations
        = anns.flatMap (validatedOf sentences)
    ∧ (∀ span, List.Sorted (· < ·) (validate_text_span_in_document span sentences))
    ∧ ∀ id : Str, hpoIdMatch id = true ↔
        hpoIdSpecPattern id = true
          ∨ ∃ t : Str, id = t ++ ['\n'] ∧ hpoIdSpecPattern t = true :=
  ⟨submit_annotations_errors anns sentences,
   submit_annotations_validated anns sentences,
   fun span => validate_doc_sorted span sentences,
   hpoIdMatch_iff⟩

theorem mem_matchingIds (terms : List HpoTerm) (key : Str) (i : Str) :
    i ∈ matchingIds terms key ↔
      ∃ t ∈ terms, t.is_obsolete = false ∧ key ∈ termKeys t ∧ t.id = i := by
  unfold matchingIds
  simp only [List.mem_map, List.mem_filter, Bool.and_eq_true, Bool.not_eq_true',
    List.contains, List.elem_eq_mem, decide_eq_true_eq]
  constructor
  · rintro ⟨t, ⟨⟨ht, hobs, hkey⟩, hid⟩⟩
    exact ⟨t, ht, hobs, hkey, hid⟩
  · rintro ⟨t, ht, hobs, hkey, hid⟩
    exact ⟨t, ⟨⟨ht, hobs, hkey⟩, hid⟩⟩

theorem find_exact_matches_eq_none (terms : List HpoTerm) (query : Str) :
    find_exact_matches terms query = none ↔
      matchingIds terms (normalize_text query) = [] := by
  unfold find_exact_matches
  by_cases h : (matchingIds terms (normalize_text query)).isEmpty
  · simp only [h, if_true]
    simpa [List.isEmpty_iff] using h
  · simp only [h, if_false]
    simp only [List.isEmpty_iff] at h
    simp [h]

theorem find_exact_matches_eq_some (terms : List HpoTerm) (query : Str)
    (ids : List Str) (h : find_exact_matches terms query = some ids) :
    ids = matchingIds terms (normalize_text query) ∧ ids ≠ [] := by
  unfold find_exact_matches at h
  by_cases he : (matchingIds terms (normalize_text query)).isEmpty
  · simp [he] at h
  · simp [he] at h
    simp only [List.isEmpty_iff] at he
    exact ⟨h.symm, h ▸ he⟩

/-- C7 (counterexample).  The claim says exact-match lookup first
normalizes the query by "lowercasing, stripping all characters outside
[a-z0-9 and whitespace], and collapsing surrounding whitespace".  The
code's `normalize_text` performs no whitespace collapsing or stripping:
`" fever"` keeps its leading space, so it matches no index key built
from `"Fever"`, while under the claimed normalization it would. -/
theorem C7_counterexample :
    normalize_text " Fever".data ≠ normalize_text_claimed " Fever".data
    ∧ find_exact_matches demoTerms " fever".data = none
    ∧ find_exact_matches demoTerms (normalize_text_claimed " fever".data)
        = some ["HP:0000001".data] := by decide

/-- C7 (amended).  Exact-match lookup normalizes the query by
lowercasing and removing every character outside `[a-z0-9\s]` (keeping
surrounding whitespace verbatim), then returns `none` — not an empty
set — when no non-obsolete term's normalized name or synonym equals the
normalized query, and otherwise the non-empty set of matching term
identifiers. -/
theorem C7_amended (terms : List HpoTerm) (query : Str) :
    (find_exact_matches terms query = none ↔
      ∀ t ∈ terms, t.is_obsolete = false → normalize_text query ∉ termKeys t)
    ∧ (∀ ids, find_exact_matches terms query = some ids →
        ids ≠ [] ∧ ∀ i : Str, i ∈ ids ↔
          ∃ t ∈ terms, t.is_obsolete = false
            ∧ normalize_text query ∈ termKeys t ∧ t.id = i)
    ∧ normalize_text query = (query.map lowerChar).filter keepChar := by
  refine ⟨?_, ?_, rfl⟩
  · rw [find_exact_matches_eq_none]
    constructor
    · intro h t ht hobs hkey
      have : t.id ∈ matchingIds terms (normalize_text query) :=
        (mem_matchingIds terms _ t.id).mpr ⟨t, ht, hobs, hkey, rfl⟩
      simp [h] at this
    · intro h
      by_contra hne
      obtain ⟨i, hi⟩ := List.exists_mem_of_ne_nil _ hne
      obtain ⟨t, ht, hobs, hkey, _⟩ := (mem_matchingIds terms _ i).mp hi
      exact h t ht hobs hkey
  · intro ids hids
    obtain ⟨heq, hne⟩ := find_exact_matches_eq_some terms query ids hids
    exact ⟨hne, fun i => heq ▸ mem_matchingIds terms _ i⟩

/-- Witness for C7: the lookup misses on a query matching no term. -/
theorem C7_witness : find_exact_matches demoTerms "zzz".data = none :=
  (C7_amended demoTerms "zzz".data).1.mpr (by decide)

theorem fillMisses_length (terms : List HpoTerm) :
    ∀ (qs : List Str) (sems : List (List Cand)),
      (fillMisses terms qs sems).length = qs.length
  | [], _ => rfl
  | q :: qs, sems => by
    unfold fillMisses
    by_cases h : isHit terms q
    · simp [h, fillMisses_length terms qs sems]
    · cases sems with
      | nil => simp [h, fillMisses_length terms qs []]
      | cons r rs => simp [h, fillMisses_length terms qs rs]

theorem fillMisses_getD (terms : List HpoTerm) :
    ∀ (qs : List Str) (sems : List (List Cand)) (i : Nat), i < qs.length →
      (fillMisses terms qs sems).getD i []
        = if isHit terms (qs.getD i []) then exactCands terms (qs.getD i [])
          else sems.getD ((qs.take i).filter (fun q => !isHit terms q)).length []
  | [], _, i, hi => by simp at hi
  | q :: qs, sems, 0, _ => by
    unfold fillMisses
    by_cases h : isHit terms q
    · simp [h]
    · cases sems with
      | nil => simp [h]
      | cons r rs => cases r <;> simp [h]
  | q :: qs, sems, i + 1, hi => by
    have hi' : i < qs.length := Nat.lt_of_succ_lt_succ hi
    unfold fillMisses
    by_cases h : isHit terms q
    · simpa [h] using fillMisses_getD terms qs sems i hi'
    · cases sems with
      | nil => simpa [h] using fillMisses_getD terms qs [] i hi'
      | cons r rs => simpa [h] using fillMisses_getD terms qs rs i hi'

/-- C6 (confirmed).  `search_terms` returns exactly one candidate
list per input query, in input order, for arbitrary mixes of exact-hit
and miss queries; an exact hit yields `(id, 1.0)` for each identifier
in the matched set and is excluded from the embedding batch; a miss is
filled from the external semantic results at its miss rank, hence `[]`
(never `none` — the result type has no null) when the store returned
nothing for it. -/
theorem C6_search_terms (terms : List HpoTerm)
    (sem : List Str → Nat → List (List Cand)) (queries : List Str) (top_k : Nat) :
    (search_terms terms sem queries top_k).length = queries.length
    ∧ (∀ i, i < queries.length → isHit terms (queries.getD i []) = true →
        ∃ ids, find_exact_matches terms (queries.getD i []) = some ids ∧ ids ≠ []
          ∧ (search_terms terms sem queries top_k).getD i []
              = ids.map fun hpo_id => (hpo_id, (1 : ℚ)))
    ∧ (∀ i, i < queries.length → isHit terms (queries.getD i []) = false →
        (search_terms terms sem queries top_k).getD i []
          = (if (queries.filter fun q => !isHit terms q).isEmpty then []
             else sem (queries.filter fun q => !isHit terms q) top_k).getD
              ((queries.take i).filter fun q => !isHit terms q).length [])
    ∧ ∀ q, isHit terms q = true → q ∉ queries.filter fun q => !isHit terms q := by
  refine ⟨fillMisses_length terms queries _, ?_, ?_, ?_⟩
  · intro i hi hhit
    cases hfind : find_exact_matches terms (queries.getD i []) with
    | none => rw [isHit, hfind] at hhit; exact absurd hhit (by simp)
    | some ids =>
      refine ⟨ids, rfl, ?_, ?_⟩
      · rw [isHit, hfind] at hhit
        simpa [List.isEmpty_iff] using hhit
      · rw [search_terms, fillMisses_getD terms queries _ i hi, if_pos hhit,
          exactCands, hfind]
        simp
  · intro i hi hmiss
    rw [search_terms, fillMisses_getD terms queries _ i hi,
      if_neg (by simp only [List.getD, List.get?_eq_getElem?] at hmiss; simp [hmiss])]
  · intro q hq hmem
    rw [List.mem_filter] at hmem
    simp [hq] at hmem

/-- Witness for C6: a concrete mix of one exact hit and one miss. -/
theorem C6_witness :
    (search_terms demoTerms (fun qs _ => qs.map fun _ => [("HP:0000009".data, (0 : ℚ))])
        ["Fever".data, "mystery".data] 20).length = ["Fever".data, "mystery".data].length
    ∧ ∃ ids, find_exact_matches demoTerms (["Fever".data, "mystery".data].getD 0 [])
          = some ids ∧ ids ≠ []
        ∧ (search_terms demoTerms
            (fun qs _ => qs.map fun _ => [("HP:0000009".data, (0 : ℚ))])
            ["Fever".data, "mystery".data] 20).getD 0 []
          = ids.map fun hpo_id => (hpo_id, (1 : ℚ)) :=
  ⟨(C6_search_terms demoTerms _ _ 20).1,
   (C6_search_terms demoTerms _ _ 20).2.1 0 (by decide) (by decide)⟩

theorem execOne_not_final (tooler : SearchOracle) (ss : List Str) (fc : FuncCall)
    (h : isCleanSubmit ss fc = false) :
    execOne tooler ss fc = .respond (toolRespOf tooler ss fc) := by
  cases fc with
  | submitAnswer m =>
    have h' : (submit_annotations m ss).errors.isEmpty = false := by
      simpa [isCleanSubmit] using h
    simp [execOne, toolRespOf, h']
  | unknownFn => rfl
  | searchSingle q k =>
    cases htk : tooler (.searchSingle q k) <;> simp [execOne, toolRespOf, htk]
  | searchBatch qs =>
    cases htk : tooler (.searchBatch qs) <;> simp [execOne, toolRespOf, htk]

theorem execCalls_no_clean (tooler : SearchOracle) (ss : List Str) :
    ∀ (fcs : List FuncCall) (acc : List ToolResp),
      (∀ fc ∈ fcs, isCleanSubmit ss fc = false) →
      execCalls tooler ss fcs acc
        = .parts (acc.reverse ++ fcs.map (toolRespOf tooler ss))
  | [], acc, _ => by simp [execCalls]
  | fc :: rest, acc, h => by
    rw [execCalls, execOne_not_final tooler ss fc (h fc (by simp))]
    show execCalls tooler ss rest (toolRespOf tooler ss fc :: acc) = _
    rw [execCalls_no_clean tooler ss rest (toolRespOf tooler ss fc :: acc)
        (fun g hg => h g (by simp [hg]))]
    simp

theorem execCalls_clean (tooler : SearchOracle) (ss : List Str) :
    ∀ (pre : List FuncCall) (m : List Ann) (rest : List FuncCall) (acc : List ToolResp),
      (∀ fc ∈ pre, isCleanSubmit ss fc = false) →
      (submit_annotations m ss).errors = [] →
      execCalls tooler ss (pre ++ FuncCall.submitAnswer m :: rest) acc
        = .finished (submit_annotations m ss).validated_annotations
  | [], m, rest, acc, _, herr => by
    rw [List.nil_append, execCalls]
    simp [execOne, herr]
  | fc :: pre, m, rest, acc, h, herr => by
    rw [List.cons_append, execCalls,
      execOne_not_final tooler ss fc (h fc (by simp))]
    show execCalls tooler ss (pre ++ FuncCall.submitAnswer m :: rest)
      (toolRespOf tooler ss fc :: acc) = _
    exact execCalls_clean tooler ss pre m rest _
      (fun g hg => h g (by simp [hg])) herr

theorem execCalls_finished_inv (tooler : SearchOracle) (ss : List Str) :
    ∀ (fcs : List FuncCall) (acc : List ToolResp) (v : List VAnn),
      execCalls tooler ss fcs acc = .finished v →
      ∃ m, FuncCall.submitAnswer m ∈ fcs ∧ (submit_annotations m ss).errors = []
        ∧ v = (submit_annotations m ss).validated_annotations
  | [], acc, v, h => by simp [execCalls] at h
  | fc :: rest, acc, v, h => by
    rw [execCalls] at h
    cases hstep : execOne tooler ss fc with
    | finalSubmit w =>
      rw [hstep] at h
      cases fc with
      | submitAnswer m =>
        unfold execOne at hstep
        by_cases he : (submit_annotations m ss).errors.isEmpty
        · simp only [he, if_true] at hstep
          refine ⟨m, by simp, by simpa [List.isEmpty_iff] using he, ?_⟩
          cases h
          cases hstep
          rfl
        · simp [he] at hstep
      | unknownFn => simp [execOne] at hstep
      | searchSingle q k =>
        unfold execOne at hstep
        cases htk : tooler (.searchSingle q k) <;> simp [htk] at hstep
      | searchBatch qs =>
        unfold execOne at hstep
        cases htk : tooler (.searchBatch qs) <;> simp [htk] at hstep
    | respond tr =>
      rw [hstep] at h
      obtain ⟨m, hm, he, hv⟩ := execCalls_finished_inv tooler ss rest (tr :: acc) v h
      exact ⟨m, by simp [hm], he, hv⟩

theorem allEmpty_getD (ss : List Str) (i : Nat) : (allEmpty ss).getD i [] = [] := by
  rw [allEmpty, List.getD_eq_getElem?_getD, List.getElem?_map]
  cases ss[i]? <;> rfl

theorem convert_untouched (nSent : Nat) (i : Nat) :
    ∀ (vs : List VAnn) (acc : List (List PMatch)),
      (∀ v ∈ vs, v.sentence_index ≠ i) →
      (vs.foldl (addMatch nSent) acc).getD i [] = acc.getD i []
  | [], acc, _ => rfl
  | v :: vs, acc, h => by
    rw [List.foldl_cons,
      convert_untouched nSent i vs _ (fun w hw => h w (by simp [hw]))]
    unfold addMatch
    split
    · rw [List.getD_eq_getElem?_getD, List.getElem?_set_ne (h v (by simp)),
        List.getD_eq_getElem?_getD]
    · rfl

theorem convertToMatches_empty_at (vs : List VAnn) (ss : List Str) (i : Nat)
    (h : ∀ v ∈ vs, v.sentence_index ≠ i) :
    (convertToMatches vs ss).getD i [] = [] := by
  rw [convertToMatches, convert_untouched ss.length i vs _ h, allEmpty_getD]

theorem orchTurn_some (tooler : SearchOracle) (ss : List Str)
    (contents : List Content) (resp : Response) :
    orchTurn tooler ss contents (some resp)
      = if (resp.filterMap id).isEmpty then TurnStep.next contents
        else
          match execCalls tooler ss (resp.filterMap id) [] with
          | .finished v => .finished (convertToMatches v ss)
          | .parts ps => .next (contents ++ [.modelMsg resp, .toolMsg ps]) := rfl

/-- C1 (confirmed).  For every submit call handled by the
orchestrator (no clean submit precedes it in the same turn): with zero
validation errors the turn terminates successfully and the output is
the validated annotations converted to a per-sentence match list, with
`[]` at every index carrying no annotation; with at least one error the
submit is not terminal — the validation result (errors included) is
placed in the tool-response turn appended to the transcript and the
conversation continues. -/
theorem C1_submit_terminal (tooler : SearchOracle) (sentences : List Str)
    (contents : List Content) (resp : Response) (pre : List FuncCall)
    (mappings : List Ann) (rest : List FuncCall)
    (hcalls : resp.filterMap id = pre ++ FuncCall.submitAnswer mappings :: rest)
    (hpre : ∀ fc ∈ pre, isCleanSubmit sentences fc = false) :
    ((submit_annotations mappings sentences).errors = [] →
      orchTurn tooler sentences contents (some resp)
        = .finished (convertToMatches
            (submit_annotations mappings sentences).validated_annotations sentences)
      ∧ ∀ i, (∀ v ∈ (submit_annotations mappings sentences).validated_annotations,
            v.sentence_index ≠ i) →
          (convertToMatches
              (submit_annotations mappings sentences).validated_annotations
              sentences).getD i [] = [])
    ∧ ((submit_annotations mappings sentences).errors ≠ [] →
        (∀ fc ∈ rest, isCleanSubmit sentences fc = false) →
        orchTurn tooler sentences contents (some resp)
          = .next (contents ++ [Content.modelMsg resp,
              Content.toolMsg ((pre ++ FuncCall.submitAnswer mappings :: rest).map
                (toolRespOf tooler sentences))])
          ∧ toolRespOf tooler sentences (FuncCall.submitAnswer mappings)
              = ToolResp.submitRes (submit_annotations mappings sentences)) := by
  have hne : (resp.filterMap id).isEmpty = false := by
    rw [hcalls]
    cases pre <;> rfl
  constructor
  · intro herr
    constructor
    · rw [orchTurn_some, hcalls]
      rw [hcalls] at hne
      simp only [hne, Bool.false_eq_true, if_false,
        execCalls_clean tooler sentences pre mappings rest [] hpre herr]
    · intro i hi
      exact convertToMatches_empty_at _ sentences i hi
  · intro herr hrest
    have hsub : isCleanSubmit sentences (FuncCall.submitAnswer mappings) = false := by
      unfold isCleanSubmit
      simpa [List.isEmpty_iff] using herr
    have hall : ∀ fc ∈ pre ++ FuncCall.submitAnswer mappings :: rest,
        isCleanSubmit sentences fc = false := by
      intro fc hfc
      rcases List.mem_append.mp hfc with h | h
      · exact hpre fc h
      · rcases List.mem_cons.mp h with h | h
        · rw [h]; exact hsub
        · exact hrest fc h
    constructor
    · rw [orchTurn_some, hcalls]
      rw [hcalls] at hne
      simp only [hne, Bool.false_eq_true, if_false,
        execCalls_no_clean tooler sentences _ [] hall]
      rfl
    · unfold toolRespOf execOne
      have h' : (submit_annotations mappings sentences).errors.isEmpty = false := by
        simpa [List.isEmpty_iff] using herr
      simp [h']

/-- Witness for C1: a clean one-annotation submit terminates the turn
with the converted output (the spec's §8 end-to-end example). -/
theorem C1_witness :
    (submit_annotations [⟨"short fingers".data, "HP:0001156".data⟩] exSentences).errors
      = []
    ∧ orchTurn raisingTooler exSentences [Content.userDoc (renderDoc exSentences)]
        (some [some exSubmit])
      = .finished (convertToMatches
          (submit_annotations [⟨"short fingers".data, "HP:0001156".data⟩]
            exSentences).validated_annotations exSentences) :=
  ⟨by decide,
   ((C1_submit_terminal raisingTooler exSentences
       [Content.userDoc (renderDoc exSentences)] [some exSubmit] []
       [⟨"short fingers".data, "HP:0001156".data⟩] []
       (by decide) (by simp)).1 (by decide)).1⟩

/-- C2 (counterexample).  The claim says any exception while
calling the resolver terminates the invocation as a fatal error with an
all-empty output.  Here the search layer raises on every call
(`raisingTooler`), yet the invocation is not terminated: the error is
returned to the provider as the tool's response, the conversation
continues, and the document still ends in a clean submission with
non-empty output on turn 2. -/
theorem C2_counterexample :
    (process_document searchThenSubmitProvider raisingTooler exSentences).1
      = .success [[⟨"HP:0001156".data, "short fingers".data⟩], []]
    ∧ (process_document searchThenSubmitProvider raisingTooler exSentences).1
        ≠ .fatalError (allEmpty exSentences)
    ∧ (process_document searchThenSubmitProvider raisingTooler exSentences).2 = 2 := by
  decide

/-- C2 (amended).  An exception while calling the provider
terminates the invocation as a fatal error whose output is an empty
match list for every sentence; an exception raised inside tool
execution (resolver or validator) is caught by the tool dispatcher and
round-tripped to the provider as the tool's error response, so the
conversation continues; in neither case does an exception cross the
document-processing boundary. -/
theorem C2_exception_handling (provider : Provider) (tooler : SearchOracle)
    (sentences : List Str) :
    (∀ (n : Nat) (contents : List Content), provider contents = none →
      runTurns provider tooler sentences (n + 1) contents
        = (.fatalError (allEmpty sentences), 1))
    ∧ (∀ (contents : List Content) (resp : Response) (pre : List FuncCall)
        (fc : FuncCall) (rest : List FuncCall),
        resp.filterMap id = pre ++ fc :: rest →
        (∀ g ∈ resp.filterMap id, isCleanSubmit sentences g = false) →
        tooler fc = none →
        ((∃ q k, fc = FuncCall.searchSingle q k) ∨ ∃ qs, fc = FuncCall.searchBatch qs) →
        orchTurn tooler sentences contents (some resp)
          = .next (contents ++ [Content.modelMsg resp,
              Content.toolMsg ((resp.filterMap id).map (toolRespOf tooler sentences))])
          ∧ toolRespOf tooler sentences fc = ToolResp.errorRes toolExcMsg) := by
  constructor
  · intro n contents hp
    rw [runTurns, hp]
    rfl
  · intro contents resp pre fc rest hcalls hnoclean htool hshape
    have hne : (resp.filterMap id).isEmpty = false := by
      rw [hcalls]
      cases pre <;> rfl
    constructor
    · rw [orchTurn_some]
      simp only [hne, Bool.false_eq_true, if_false,
        execCalls_no_clean tooler sentences _ [] hnoclean]
      rfl
    · rcases hshape with ⟨q, k, hfc⟩ | ⟨qs, hfc⟩ <;>
        subst hfc <;> simp [toolRespOf, execOne, htool]

/-- Witness for C2: a provider exception on the very first turn yields
the fatal all-empty outcome. -/
theorem C2_witness :
    runTurns (fun _ => none) raisingTooler exSentences 1
        [Content.userDoc (renderDoc exSentences)]
      = (.fatalError (allEmpty exSentences), 1) :=
  (C2_exception_handling (fun _ => none) raisingTooler exSentences).1 0
    [Content.userDoc (renderDoc exSentences)] rfl

/-- C3 (confirmed).  If no submit call with zero validation errors
is ever produced by the provider, the orchestrator terminates within
the fixed budget of `max_turns = 10` provider turns and hands back an
empty match list for each sentence (a value, not an exception). -/
theorem C3_turn_budget (provider : Provider) (tooler : SearchOracle)
    (sentences : List Str)
    (H : ∀ contents resp, provider contents = some resp →
      ∀ mappings, FuncCall.submitAnswer mappings ∈ resp.filterMap id →
        (submit_annotations mappings sentences).errors ≠ []) :
    ((process_document provider tooler sentences).1 = .turnBudget (allEmpty sentences)
      ∨ (process_document provider tooler sentences).1
          = .fatalError (allEmpty sentences))
    ∧ (process_document provider tooler sentences).2 ≤ max_turns := by
  suffices h : ∀ (n : Nat) (contents : List Content),
      ((runTurns provider tooler sentences n contents).1
          = .turnBudget (allEmpty sentences)
        ∨ (runTurns provider tooler sentences n contents).1
          = .fatalError (allEmpty sentences))
      ∧ (runTurns provider tooler sentences n contents).2 ≤ n from
    h max_turns _
  intro n
  induction n with
  | zero => exact fun contents => ⟨Or.inl rfl, Nat.le_refl 0⟩
  | succ n ih =>
    intro contents
    rw [runTurns]
    cases hp : provider contents with
    | none => exact ⟨Or.inr rfl, Nat.succ_le_succ (Nat.zero_le n)⟩
    | some resp =>
      rw [orchTurn_some]
      by_cases hnc : (resp.filterMap id).isEmpty
      · simp only [hnc, if_true]
        exact ⟨(ih contents).1, Nat.succ_le_succ (ih contents).2⟩
      · simp only [hnc, Bool.false_eq_true, if_false]
        cases hex : execCalls tooler sentences (resp.filterMap id) [] with
        | finished v =>
          obtain ⟨m, hm, he, _⟩ := execCalls_finished_inv tooler sentences _ _ _ hex
          exact absurd he (H contents resp hp m hm)
        | parts ps =>
          exact ⟨(ih _).1, Nat.succ_le_succ (ih _).2⟩

/-- Witness for C3: a provider that never issues a tool call exhausts
the budget with an all-empty output. -/
theorem C3_witness :
    ((process_document textOnlyProvider raisingTooler exSentences).1
        = .turnBudget (allEmpty exSentences)
      ∨ (process_document textOnlyProvider raisingTooler exSentences).1
        = .fatalError (allEmpty exSentences))
    ∧ (process_document textOnlyProvider raisingTooler exSentences).2 ≤ max_turns :=
  C3_turn_budget textOnlyProvider raisingTooler exSentences (by
    intro c r hr m hm
    have : r = [none] := by
      simpa [textOnlyProvider] using hr.symm
    subst this
    simp at hm)

/-- C8 (counterexample).  The claim says a tool-call-free response
still grows the transcript.  It does not: the response is discarded and
the next turn runs on the unchanged transcript. -/
theorem C8_counterexample :
    orchTurn raisingTooler exSentences [Content.userDoc (renderDoc exSentences)]
        (some [none])
      = .next [Content.userDoc (renderDoc exSentences)] := rfl

/-- C8 (amended).  A turn in which the provider's response contains
no tool call performs no extraction and still counts toward the turn
budget, but the transcript does not grow: the tool-call-free response
is discarded and the loop continues with the transcript unchanged. -/
theorem C8_no_tool_call_turn (provider : Provider) (tooler : SearchOracle)
    (sentences : List Str) (n : Nat) (contents : List Content) (resp : Response)
    (hp : provider contents = some resp)
    (hnc : resp.filterMap id = []) :
    orchTurn tooler sentences contents (some resp) = .next contents
    ∧ (runTurns provider tooler sentences (n + 1) contents).1
        = (runTurns provider tooler sentences n contents).1
    ∧ (runTurns provider tooler sentences (n + 1) contents).2
        = (runTurns provider tooler sentences n contents).2 + 1 := by
  have hturn : orchTurn tooler sentences contents (some resp) = .next contents := by
    simp [orchTurn, hnc]
  refine ⟨hturn, ?_, ?_⟩ <;> rw [runTurns, hp, hturn]

theorem lowerChar_cases (c : Char) :
    lowerChar c = c ∨ (c ∈ upperLits ∧ lowerChar c ∈ lowerLits) := by
  unfold lowerChar
  split
  all_goals first
    | (left; rfl)
    | (right; exact ⟨by decide, by decide⟩)

theorem lowerLits_fix : ∀ d ∈ lowerLits, lowerChar d = d := by decide

theorem upperLits_not_keep : ∀ d ∈ upperLits, keepChar d = false := by decide

theorem lowerChar_idem (c : Char) : lowerChar (lowerChar c) = lowerChar c := by
  rcases lowerChar_cases c with h | ⟨_, h⟩
  · rw [h]; exact h
  · exact lowerLits_fix _ h

theorem lowerChar_keep_fix {c : Char} (h : keepChar c = true) : lowerChar c = c := by
  rcases lowerChar_cases c with hc | ⟨hc, _⟩
  · exact hc
  · rw [upperLits_not_keep c hc] at h
    cases h

theorem map_id_of_fix {α : Type} {f : α → α} :
    ∀ {l : List α}, (∀ c ∈ l, f c = c) → l.map f = l
  | [], _ => rfl
  | c :: t, h => by
    rw [List.map_cons, h c (by simp), map_id_of_fix fun d hd => h d (by simp [hd])]

theorem flatMap_id_of_fix {α : Type} {f : α → List α} :
    ∀ {l : List α}, (∀ c ∈ l, f c = [c]) → l.flatMap f = l
  | [], _ => rfl
  | c :: t, h => by
    rw [List.flatMap_cons, h c (by simp),
      flatMap_id_of_fix fun d hd => h d (by simp [hd])]
    rfl

theorem normalize_text_idem (s : Str) :
    normalize_text (normalize_text s) = normalize_text s := by
  unfold normalize_text
  have h1 : ∀ c ∈ (s.map lowerChar).filter keepChar, keepChar c = true :=
    fun c hc => (List.mem_filter.mp hc).2
  rw [map_id_of_fix fun c hc => lowerChar_keep_fix (h1 c hc)]
  exact List.filter_eq_self.mpr h1

theorem assocFind_mem {l : List (Char × Str)} {c : Char} {v : Str} :
    assocFind l c = some v → (c, v) ∈ l := by
  induction l with
  | nil => intro h; cases h
  | cons p t ih =>
    intro h
    obtain ⟨k, w⟩ := p
    rw [assocFind] at h
    by_cases hc : c = k
    · rw [if_pos hc] at h
      cases h
      subst hc
      exact List.mem_cons_self _ _
    · rw [if_neg hc] at h
      exact List.mem_cons_of_mem _ (ih h)

theorem assocFind_none_of_le {l : List (Char × Str)} {c : Char}
    (hall : l.all (fun p => 127 < p.1.toNat) = true) (hc : c.toNat ≤ 127) :
    assocFind l c = none := by
  induction l with
  | nil => rfl
  | cons p t ih =>
    obtain ⟨k, w⟩ := p
    simp only [List.all_cons, Bool.and_eq_true] at hall
    rw [assocFind, if_neg ?_]
    · exact ih hall.2
    · intro hck
      have h1 : 127 < k.toNat := by simpa using hall.1
      rw [hck] at hc
      omega

theorem mapCharPy_le127 {c : Char} (hc : c.toNat ≤ 127) : mapCharPy c = [c] := by
  unfold mapCharPy
  rw [assocFind_none_of_le (by decide) hc]
  rfl

theorem nfdStepPy_le127 {c : Char} (hc : c.toNat ≤ 127) : nfdStepPy c = c := by
  unfold nfdStepPy
  rw [if_pos hc]

theorem lowerChar_le127 {c : Char} (hc : c.toNat ≤ 127) :
    (lowerChar c).toNat ≤ 127 := by
  rcases lowerChar_cases c with h | ⟨_, h⟩
  · rw [h]; exact hc
  · exact (by decide : ∀ d ∈ lowerLits, d.toNat ≤ 127) _ h

theorem lowerChar_gt127 {c : Char} (hc : 127 < c.toNat) : lowerChar c = c := by
  rcases lowerChar_cases c with h | ⟨hu, _⟩
  · exact h
  · have := (by decide : ∀ d ∈ upperLits, d.toNat ≤ 127) _ hu
    omega

theorem pipeFix_iff {c : Char} :
    pipeFix c = true ↔ mapCharPy c = [c] ∧ nfdStepPy c = c ∧ lowerChar c = c := by
  simp [pipeFix, Bool.and_eq_true, and_assoc]

theorem charPipe_of_pipeFix {c : Char} (h : pipeFix c = true) : charPipe c = [c] := by
  obtain ⟨h1, h2, h3⟩ := pipeFix_iff.mp h
  unfold charPipe
  rw [h1]
  simp [h2, h3]

theorem pipeFix_lower_of_le127 {c : Char} (hc : c.toNat ≤ 127) :
    pipeFix (lowerChar c) = true :=
  have hl : (lowerChar c).toNat ≤ 127 := lowerChar_le127 hc
  pipeFix_iff.mpr ⟨mapCharPy_le127 hl, nfdStepPy_le127 hl, lowerChar_idem c⟩

theorem nfdStep_cases (c : Char) :
    nfdStepPy c = c ∨ ∃ tl, (c, nfdStepPy c :: tl) ∈ nfdTable := by
  by_cases hc : c.toNat ≤ 127
  · exact Or.inl (nfdStepPy_le127 hc)
  · cases hf : assocFind nfdTable c with
    | none =>
      left
      unfold nfdStepPy
      rw [if_neg hc, hf]
    | some v =>
      cases v with
      | nil =>
        left
        unfold nfdStepPy
        rw [if_neg hc, hf]
      | cons hd tl =>
        by_cases hcond : (!tl.isEmpty && decide (hd.toNat ≤ 127)) = true
        · have hstep : nfdStepPy c = hd := by
            unfold nfdStepPy
            rw [if_neg hc, hf]
            exact if_pos hcond
          rw [hstep]
          exact Or.inr ⟨tl, assocFind_mem hf⟩
        · left
          unfold nfdStepPy
          rw [if_neg hc, hf]
          exact if_neg hcond

theorem charMappings_pipe :
    charMappings.all
      (fun p => (p.2.map fun x => lowerChar (nfdStepPy x)).all pipeFix) = true := by
  decide

theorem nfdTable_pipe :
    nfdTable.all (fun p =>
      match p.2 with
      | x :: _ => pipeFix (lowerChar x)
      | [] => true) = true := by
  decide

theorem charPipe_mem_fix {c d : Char} (hd : d ∈ charPipe c) : pipeFix d = true := by
  unfold charPipe at hd
  cases hmap : assocFind charMappings c with
  | some repl =>
    have hrepl : mapCharPy c = repl := by unfold mapCharPy; rw [hmap]; rfl
    rw [hrepl] at hd
    have hall := List.all_eq_true.mp charMappings_pipe _ (assocFind_mem hmap)
    exact List.all_eq_true.mp hall d hd
  | none =>
    have hrepl : mapCharPy c = [c] := by unfold mapCharPy; rw [hmap]; rfl
    rw [hrepl] at hd
    simp only [List.map_cons, List.map_nil, List.mem_singleton] at hd
    subst hd
    rcases nfdStep_cases c with hn | ⟨tl, hmem⟩
    · rw [hn]
      by_cases hc : c.toNat ≤ 127
      · exact pipeFix_lower_of_le127 hc
      · have hgt := Nat.lt_of_not_le hc
        rw [lowerChar_gt127 hgt]
        exact pipeFix_iff.mpr ⟨hrepl, hn, lowerChar_gt127 hgt⟩
    · exact List.all_eq_true.mp nfdTable_pipe _ hmem

theorem map_flatMap_comm {α : Type} (h : α → α) (f : α → List α) :
    ∀ l : List α, (l.flatMap f).map h = l.flatMap fun c => (f c).map h
  | [] => rfl
  | c :: t => by
    rw [List.flatMap_cons, List.map_append, map_flatMap_comm h f t,
      List.flatMap_cons]

theorem uniLower_eq_flatMap (s : Str) :
    (normalize_unicode_to_ascii s).map lowerChar = s.flatMap charPipe := by
  unfold normalize_unicode_to_ascii
  rw [List.map_map, map_flatMap_comm]
  rfl

theorem charPipe_fix_of_mem {s : Str} {d : Char} (hd : d ∈ s.flatMap charPipe) :
    charPipe d = [d] := by
  obtain ⟨c, _, hdc⟩ := List.mem_flatMap.mp hd
  exact charPipe_of_pipeFix (charPipe_mem_fix hdc)

theorem beq_space_eq_false {c : Char} (h : isSpacePy c = false) :
    (c == ' ') = false := by
  cases hc : c == ' '
  · rfl
  · rw [beq_iff_eq] at hc
    subst hc
    exact absurd h (by decide)

theorem noTwoSp_cons_cons (c d : Char) (t : Str) :
    noTwoSp (c :: d :: t) = (!(c == ' ' && d == ' ') && noTwoSp (d :: t)) := rfl

theorem noTwoSp_tail : ∀ {c : Char} {t : Str}, noTwoSp (c :: t) = true →
    noTwoSp t = true
  | _, [], _ => rfl
  | _, _ :: _, h => by
    rw [noTwoSp_cons_cons, Bool.and_eq_true] at h
    exact h.2

theorem collapseWsAux_canon :
    ∀ (l : Str) (b : Bool),
      allSp (collapseWsAux b l) = true ∧ noTwoSp (collapseWsAux b l) = true
        ∧ (b = true → headNotSp (collapseWsAux b l) = true)
  | [], _ => ⟨rfl, rfl, fun _ => rfl⟩
  | c :: t, b => by
    rw [collapseWsAux]
    by_cases hsp : isSpacePy c
    · rw [if_pos hsp]
      cases b with
      | true =>
        rw [if_pos rfl]
        exact collapseWsAux_canon t true
      | false =>
        rw [if_neg (by simp)]
        obtain ⟨ih1, ih2, ih3⟩ := collapseWsAux_canon t true
        refine ⟨?_, ?_, fun h => by cases h⟩
        · rw [allSp, List.all_cons, Bool.and_eq_true]
          exact ⟨by decide, ih1⟩
        · cases hr : collapseWsAux true t with
          | nil => rfl
          | cons d r =>
            rw [hr] at ih2 ih3
            have hd : isSpacePy d = false := by
              simpa [headNotSp] using ih3 rfl
            rw [noTwoSp_cons_cons, Bool.and_eq_true]
            exact ⟨by simp [beq_space_eq_false hd], ih2⟩
    · rw [if_neg hsp]
      obtain ⟨ih1, ih2, _⟩ := collapseWsAux_canon t false
      refine ⟨?_, ?_, fun _ => ?_⟩
      · rw [allSp, List.all_cons, Bool.and_eq_true]
        exact ⟨by simp [hsp], ih1⟩
      · cases hr : collapseWsAux false t with
        | nil => rfl
        | cons d r =>
          rw [hr] at ih2
          rw [noTwoSp_cons_cons, Bool.and_eq_true]
          have hsp' : isSpacePy c = false := by simpa using hsp
          exact ⟨by simp [beq_space_eq_false hsp'], ih2⟩
      · simp [headNotSp, hsp]

theorem dropWhile_mem {p : Char → Bool} {l : Str} {c : Char}
    (h : c ∈ l.dropWhile p) : c ∈ l :=
  (List.dropWhile_sublist p).subset h

theorem mem_collapseWsAux {d : Char} :
    ∀ {b : Bool} {l : Str}, d ∈ collapseWsAux b l → d = ' ' ∨ d ∈ l := by
  intro b l
  induction l generalizing b with
  | nil => intro h; cases h
  | cons c t ih =>
    intro h
    rw [collapseWsAux] at h
    by_cases hsp : isSpacePy c
    · rw [if_pos hsp] at h
      by_cases hb : b = true
      · rw [if_pos hb] at h
        rcases ih h with h1 | h1
        · exact Or.inl h1
        · exact Or.inr (List.mem_cons_of_mem _ h1)
      · rw [if_neg hb] at h
        rcases List.mem_cons.mp h with h1 | h1
        · exact Or.inl h1
        · rcases ih h1 with h2 | h2
          · exact Or.inl h2
          · exact Or.inr (List.mem_cons_of_mem _ h2)
    · rw [if_neg hsp] at h
      rcases List.mem_cons.mp h with h1 | h1
      · exact Or.inr (h1 ▸ List.mem_cons_self _ _)
      · rcases ih h1 with h2 | h2
        · exact Or.inl h2
        · exact Or.inr (List.mem_cons_of_mem _ h2)

theorem mem_dropTrailWs {d : Char} : ∀ {l : Str}, d ∈ dropTrailWs l → d ∈ l := by
  intro l
  induction l with
  | nil => intro h; cases h
  | cons c t ih =>
    intro h
    rw [dropTrailWs] at h
    cases hr : dropTrailWs t with
    | nil =>
      rw [hr] at h
      by_cases hsp : isSpacePy c
      · rw [if_pos hsp] at h; cases h
      · rw [if_neg hsp] at h
        rcases List.mem_cons.mp h with h1 | h1
        · exact h1 ▸ List.mem_cons_self _ _
        · cases h1
    | cons e r =>
      rw [hr] at h
      rcases List.mem_cons.mp h with h1 | h1
      · exact h1 ▸ List.mem_cons_self _ _
      · exact List.mem_cons_of_mem _ (ih (hr ▸ h1))

theorem dropTrailWs_head? :
    ∀ l : Str, dropTrailWs l = [] ∨ (dropTrailWs l).head? = l.head?
  | [] => Or.inl rfl
  | c :: t => by
    rw [dropTrailWs]
    cases hr : dropTrailWs t with
    | nil =>
      by_cases hsp : isSpacePy c
      · rw [if_pos hsp]; exact Or.inl rfl
      · rw [if_neg hsp]; exact Or.inr rfl
    | cons d r => exact Or.inr rfl

theorem noTwoSp_dropWhile {l : Str} (h : noTwoSp l = true) :
    noTwoSp (l.dropWhile isSpacePy) = true := by
  induction l with
  | nil => exact h
  | cons c t ih =>
    rw [List.dropWhile_cons]
    split
    · exact ih (noTwoSp_tail h)
    · exact h

theorem headNotSp_dropWhile (l : Str) :
    headNotSp (l.dropWhile isSpacePy) = true := by
  induction l with
  | nil => rfl
  | cons c t ih =>
    rw [List.dropWhile_cons]
    split
    · exact ih
    · next h => simp [headNotSp, Bool.not_eq_true] at h ⊢; exact h

theorem noTwoSp_dropTrail : ∀ {l : Str}, noTwoSp l = true →
    noTwoSp (dropTrailWs l) = true
  | [], h => h
  | c :: t, h => by
    rw [dropTrailWs]
    cases hr : dropTrailWs t with
    | nil =>
      by_cases hsp : isSpacePy c
      · rw [if_pos hsp]; rfl
      · rw [if_neg hsp]; rfl
    | cons d r =>
      have ihr : noTwoSp (d :: r) = true := by
        rw [← hr]; exact noTwoSp_dropTrail (noTwoSp_tail h)
      rcases dropTrailWs_head? t with hnil | hhd
      · rw [hnil] at hr; cases hr
      · rw [hr] at hhd
        cases t with
        | nil => cases hr
        | cons e t2 =>
          have hde : d = e := by simpa using hhd
          subst hde
          rw [noTwoSp_cons_cons, Bool.and_eq_true] at h ⊢
          exact ⟨h.1, ihr⟩

theorem lastNotSp_dropTrail : ∀ l : Str, lastNotSp (dropTrailWs l) = true
  | [] => rfl
  | c :: t => by
    rw [dropTrailWs]
    cases hr : dropTrailWs t with
    | nil =>
      by_cases hsp : isSpacePy c
      · rw [if_pos hsp]; rfl
      · rw [if_neg hsp]; simp [lastNotSp, hsp]
    | cons d r =>
      have := lastNotSp_dropTrail t
      rw [hr] at this
      exact this

theorem headNotSp_dropTrail {l : Str} (h : headNotSp l = true) :
    headNotSp (dropTrailWs l) = true := by
  rcases dropTrailWs_head? l with hnil | hhd
  · rw [hnil]; rfl
  · cases hl : dropTrailWs l with
    | nil => rfl
    | cons d r =>
      rw [hl] at hhd
      cases l with
      | nil => cases hl
      | cons e t =>
        have hde : d = e := by simpa using hhd
        subst hde
        simpa [headNotSp] using h

theorem allSp_of_sub {l m : Str} (hsub : ∀ c ∈ m, c ∈ l) (h : allSp l = true) :
    allSp m = true := by
  rw [allSp, List.all_eq_true] at h ⊢
  exact fun c hc => h c (hsub c hc)

theorem dropWhile_id_of_headNotSp {l : Str} (h : headNotSp l = true) :
    l.dropWhile isSpacePy = l := by
  cases l with
  | nil => rfl
  | cons c t =>
    have hc : isSpacePy c = false := by simpa [headNotSp] using h
    rw [List.dropWhile_cons]
    simp [hc]

theorem dropTrail_id_of_lastNotSp : ∀ {l : Str}, lastNotSp l = true →
    dropTrailWs l = l
  | [], _ => rfl
  | [c], h => by
    have hc : isSpacePy c = false := by simpa [lastNotSp] using h
    rw [dropTrailWs]
    simp [dropTrailWs, hc]
  | c :: d :: t, h => by
    have ht : lastNotSp (d :: t) = true := by
      simpa [lastNotSp] using h
    have hr := dropTrail_id_of_lastNotSp ht
    rw [dropTrailWs, hr]

theorem collapse_id_of_canon :
    ∀ {l : Str}, allSp l = true → noTwoSp l = true →
      collapseWsAux false l = l ∧ (headNotSp l = true → collapseWsAux true l = l)
  | [], _, _ => ⟨rfl, fun _ => rfl⟩
  | c :: t, ha, hn => by
    have hat : allSp t = true := by
      rw [allSp, List.all_cons, Bool.and_eq_true] at ha
      exact ha.2
    have hnt : noTwoSp t = true := noTwoSp_tail hn
    obtain ⟨ih1, ih2⟩ := collapse_id_of_canon hat hnt
    by_cases hsp : isSpacePy c
    · have hc : c = ' ' := by
        rw [allSp, List.all_cons, Bool.and_eq_true] at ha
        have h1 := ha.1
        rw [hsp] at h1
        simpa using h1
      have hht : headNotSp t = true := by
        cases t with
        | nil => rfl
        | cons d r =>
          subst hc
          rw [noTwoSp_cons_cons, Bool.and_eq_true] at hn
          have hd' : (d == ' ') = false := by simpa using hn.1
          rw [allSp, List.all_cons, Bool.and_eq_true] at hat
          have h2 := hat.1
          show (!isSpacePy d) = true
          cases hd2 : isSpacePy d
          · rfl
          · rw [hd2, hd'] at h2
            cases h2
      constructor
      · rw [collapseWsAux, if_pos hsp, if_neg (by simp), ih2 hht, hc]
      · intro hh
        rw [headNotSp, hsp] at hh
        cases hh
    · constructor
      · rw [collapseWsAux, if_neg hsp, ih1]
      · intro _
        rw [collapseWsAux, if_neg hsp, ih1]

theorem ntfm_def (x : Str) :
    normalize_text_for_matching x
      = dropTrailWs (((collapseWsAux false
          ((normalize_unicode_to_ascii x).map lowerChar))).dropWhile isSpacePy) := rfl

theorem ntfm_idem (s : Str) :
    normalize_text_for_matching (normalize_text_for_matching s)
      = normalize_text_for_matching s := by
  have hmemfix : ∀ d ∈ normalize_text_for_matching s, charPipe d = [d] := by
    intro d hd
    rw [ntfm_def] at hd
    have h1 : d ∈ collapseWsAux false ((normalize_unicode_to_ascii s).map lowerChar) :=
      dropWhile_mem (mem_dropTrailWs hd)
    rcases mem_collapseWsAux h1 with h2 | h2
    · subst h2
      exact charPipe_of_pipeFix (by decide)
    · rw [uniLower_eq_flatMap] at h2
      exact charPipe_fix_of_mem h2
  have hG : (normalize_unicode_to_ascii (normalize_text_for_matching s)).map lowerChar
      = normalize_text_for_matching s := by
    rw [uniLower_eq_flatMap]
    exact flatMap_id_of_fix hmemfix
  have hca := collapseWsAux_canon ((normalize_unicode_to_ascii s).map lowerChar) false
  have hall : allSp (normalize_text_for_matching s) = true := by
    rw [ntfm_def]
    exact allSp_of_sub (fun c hc => dropWhile_mem (mem_dropTrailWs hc)) hca.1
  have hnts : noTwoSp (normalize_text_for_matching s) = true := by
    rw [ntfm_def]
    exact noTwoSp_dropTrail (noTwoSp_dropWhile hca.2.1)
  have hhead : headNotSp (normalize_text_for_matching s) = true := by
    rw [ntfm_def]
    exact headNotSp_dropTrail (headNotSp_dropWhile _)
  have hlast : lastNotSp (normalize_text_for_matching s) = true := by
    rw [ntfm_def]
    exact lastNotSp_dropTrail _
  rw [ntfm_def (normalize_text_for_matching s), hG,
    (collapse_id_of_canon hall hnts).1, dropWhile_id_of_headNotSp hhead,
    dropTrail_id_of_lastNotSp hlast]

/-- C9 (confirmed).  Both normalizations are idempotent: the
index/query normalization `normalize_text` (lowercase, remove
characters outside `[a-z0-9\s]`) and the span-matching normalization
`normalize_text_for_matching` (unicode-to-ASCII mapping, lowercase,
collapse whitespace runs to single spaces, strip). -/
theorem C9_normalization_idempotent (s : Str) :
    normalize_text (normalize_text s) = normalize_text s
    ∧ normalize_text_for_matching (normalize_text_for_matching s)
        = normalize_text_for_matching s :=
  ⟨normalize_text_idem s, ntfm_idem s⟩

/-- Witness for C9 at a concrete string exercising case, punctuation,
unicode dashes and accents, and whitespace runs. -/
theorem C9_witness :
    normalize_text (normalize_text "  Fé—ver!\t X ".data)
        = normalize_text "  Fé—ver!\t X ".data
    ∧ normalize_text_for_matching
          (normalize_text_for_matching "  Fé—ver!\t X ".data)
        = normalize_text_for_matching "  Fé—ver!\t X ".data :=
  C9_normalization_idempotent "  Fé—ver!\t X ".data

/-- Witness for C4 at a concrete batch: one newline-carrying identifier
and one malformed identifier. -/
theorem C4_witness :
    (submit_annotations [newlineIdAnn, ⟨"tall".data, "bogus".data⟩] exSentences).errors
      = [newlineIdAnn, (⟨"tall".data, "bogus".data⟩ : Ann)].filterMap (errorOf exSentences)
    ∧ List.Sorted (· < ·) (validate_text_span_in_document "short".data exSentences) :=
  ⟨(C4_amended [newlineIdAnn, ⟨"tall".data, "bogus".data⟩] exSentences).1,
   (C4_amended [newlineIdAnn, ⟨"tall".data, "bogus".data⟩] exSentences).2.2.1
     "short".data⟩

/-- Witness for C8: one wasted turn consumes budget and leaves the
transcript untouched. -/
theorem C8_witness :
    orchTurn raisingTooler exSentences [] (some [none]) = .next []
    ∧ (runTurns textOnlyProvider raisingTooler exSentences 1 []).1
        = (runTurns textOnlyProvider raisingTooler exSentences 0 []).1
    ∧ (runTurns textOnlyProvider raisingTooler exSentences 1 []).2
        = (runTurns textOnlyProvider raisingTooler exSentences 0 []).2 + 1 :=
  C8_no_tool_call_turn textOnlyProvider raisingTooler exSentences 0 [] [none] rfl rfl

end HpoAgent
